import Mathlib

/-!
Shallow embedding of the audio post-processing core of
stepik-studio-postprocessing: the adaptive noise canceller
(`audio_processing/noise_cancellation/adaptive_cancellation.py`) and the
cross-correlation synchronizer
(`audio_processing/synchronization/cross_correlation_sync.py`).

Modelling conventions: Python byte strings are `List ℕ` (each element one
byte value, bounded by 256 where it matters), numpy integer arrays are
`List ℤ`, Python floats are exact rationals `ℚ`, and raised exceptions are
`Except PyError` values (or an `Option PyError` field where the flow of
side effects also matters).
-/

/-- Python exception values raised by the embedded code. -/
inductive PyError where
  | typeErr (msg : String) : PyError
  | valueErr (msg : String) : PyError
deriving DecidableEq

/-- Audio container types distinguished by the file descriptors
(`AudioSuffixes` in the sources). -/
inductive AudioSuffix where
  | wav : AudioSuffix
  | mp3 : AudioSuffix
deriving DecidableEq

/-- An audio file descriptor together with the raw PCM byte content of the
underlying WAV data: `audio_type`, `get_n_channels`, `get_framerate` and
`get_sample_width` of the descriptor, plus the byte sequence that
successive `readframes` calls traverse. -/
structure AudioFile where
  audio_type : AudioSuffix
  n_channels : ℕ
  framerate : ℕ
  sample_width : ℕ
  content : List ℕ
deriving DecidableEq

/-- Byte size of one frame: channels times sample width. -/
def AudioFile.frameSize (a : AudioFile) : ℕ := a.n_channels * a.sample_width

/-- Fuel-driven worker for `chunksOf`; the fuel is an upper bound on the
list length, so the recursion is structural (and therefore evaluates
inside the kernel). -/
def chunksOfAux (k : ℕ) : ℕ → List α → List (List α)
  | 0, _ => []
  | _, [] => []
  | fuel + 1, x :: xs =>
    if k = 0 then []
    else (x :: xs).take k :: chunksOfAux k fuel ((x :: xs).drop k)

/-- Successive chunks produced by repeated `readframes` calls reading `k`
bytes at a time: each read returns at most `k` bytes, and a read at the end
of the stream returns the empty string, which stops every chunk loop in the
sources. -/
def chunksOf (k : ℕ) (l : List α) : List (List α) := chunksOfAux k l.length l

/-- Value of a little-endian byte sequence. -/
def leVal : List ℕ → ℕ
  | [] => 0
  | b :: bs => b + 256 * leVal bs

/-- Little-endian encoding of `v` on `w` bytes (the `np.byte` view of a
machine integer, least significant byte first). -/
def encodeLE : ℕ → ℕ → List ℕ
  | 0, _ => []
  | w + 1, v => v % 256 :: encodeLE w (v / 256)

/-- Two's-complement reading of a `w`-byte unsigned value. -/
def toSigned (w v : ℕ) : ℤ :=
  if v < 2 ^ (8 * w - 1) then (v : ℤ) else (v : ℤ) - 2 ^ (8 * w)

/-- `w`-byte two's-complement encoding of an integer: reduction modulo
`2 ^ (8 w)` followed by the little-endian byte layout. -/
def encodeSigned (w : ℕ) (z : ℤ) : List ℕ :=
  encodeLE w (z % (2 ^ (8 * w) : ℤ)).toNat

/-- Reduction of an integer into `w`-byte two's-complement range by
wraparound (the value a numpy cast down to a `w`-byte integer stores). -/
def wrapSigned (w : ℕ) (z : ℤ) : ℤ := toSigned w (z % (2 ^ (8 * w) : ℤ)).toNat

/-- `np.fromstring(data, dtype)` for a `w`-byte signed integer dtype:
reinterpret the byte string as machine integers; numpy raises `ValueError`
when the byte length is not a multiple of the element size. -/
def np_fromstring (w : ℕ) (data : List ℕ) : Except PyError (List ℤ) :=
  if w ≠ 0 ∧ data.length % w = 0 then
    .ok ((chunksOf w data).map (fun c => toSigned w (leVal c)))
  else
    .error (.valueErr "string size must be a multiple of element size")

/-- `AdaptiveNoiseCanceller._get_ratios`: derives the two mix gains from
the configured ratio. -/
def _get_ratios (ratio : ℚ) : ℚ × ℚ := (ratio / 2, (2 - ratio) / 2)

/-- Truncation toward zero: the C-cast semantics `np.float64.astype(int)`
applies to a (here exactly represented) floating-point value.  `Int.tdiv`
is integer division truncating toward zero, so on the reduced fraction it
is exactly the dropped fractional part. -/
def truncQ (q : ℚ) : ℤ := q.num.tdiv q.den

/-- numpy broadcasting of two one-dimensional arrays of the same dtype:
equal lengths pair elementwise, a length-one array is stretched, anything
else raises `ValueError` at the arithmetic operation. -/
def broadcast2 (a b : List ℤ) : Option (List ℤ × List ℤ) :=
  if a.length = b.length then some (a, b)
  else if a.length = 1 then some (List.replicate b.length (a.getD 0 0), b)
  else if b.length = 1 then some (a, List.replicate a.length (b.getD 0 0))
  else none

/-- `AdaptiveNoiseCanceller._invert`: reinterpret the chunk as `np.int32`,
apply `np.invert` (bitwise NOT, i.e. `fun z => -z - 1` in two's
complement), and lay the words back out as bytes. -/
def _invert (data : List ℕ) : Except PyError (List ℕ) := do
  let intwave ← np_fromstring 4 data
  let inverted := intwave.map (fun z => -z - 1)
  .ok ((inverted.map (encodeSigned 4)).flatten)

/-- `AdaptiveNoiseCanceller._mix_samples`: reinterpret both chunks as
`np.int16`, form `s1 * ratio_1 + s2 * ratio_2` elementwise in float
arithmetic (here exact rationals), and cast back to `np.int16` by
truncation toward zero with wraparound. -/
def _mix_samples (ratio : ℚ) (sample_1 sample_2 : List ℕ) : Except PyError (List ℕ) := do
  let r := _get_ratios ratio
  let s1 ← np_fromstring 2 sample_1
  let s2 ← np_fromstring 2 sample_2
  match broadcast2 s1 s2 with
  | none => .error (.valueErr "operands could not be broadcast together")
  | some (a, b) =>
      .ok (((List.zipWith
              (fun x y => wrapSigned 2 (truncQ ((x : ℚ) * r.1 + (y : ℚ) * r.2)))
              a b).map (encodeSigned 2)).flatten)

/-- The streams opened by `AdaptiveNoiseCanceller.process`. -/
inductive StreamId where
  | mainS : StreamId
  | auxS : StreamId
  | outputS : StreamId
deriving DecidableEq

/-- Constructor state of `AdaptiveNoiseCanceller.__init__` with its
defaults. -/
structure NCConfig where
  output_framerate : Option ℕ := none
  channels : Option ℕ := none
  sample_width : Option ℕ := none
  ratio : ℚ := 1
  chunk_size : ℕ := 1

/-- Python truthiness-based defaulting `if not self.x: self.x = d`, which
replaces both `None` and `0` by the stream-inferred default. -/
def pyDefault (o : Option ℕ) (d : ℕ) : ℕ :=
  match o with
  | none => d
  | some 0 => d
  | some n => n

/-- Observable outcome of one `AdaptiveNoiseCanceller.process` call: the
chunks written to the output stream before it ended, the resolved output
metadata (framerate, channels, sample width), the close events issued in
order, and the exception that escaped, if any. -/
structure NCResult where
  written : List (List ℕ)
  outputMeta : ℕ × ℕ × ℕ
  closed : List StreamId
  error : Option PyError
deriving DecidableEq

/-- The chunk loop of `AdaptiveNoiseCanceller.process`: while both reads
are non-empty, invert the aux chunk, mix, and write; an exception from
`_invert` or `_mix_samples` escapes the loop at once, keeping the chunks
already written. -/
def ncLoop (ratio : ℚ) : List (List ℕ) → List (List ℕ) → List (List ℕ) × Option PyError
  | original :: mrest, aux :: arest =>
      match _invert aux with
      | .error e => ([], some e)
      | .ok inverted_aux =>
          match _mix_samples ratio original inverted_aux with
          | .error e => ([], some e)
          | .ok mix =>
              let r := ncLoop ratio mrest arest
              (mix :: r.1, r.2)
  | _, _ => ([], none)

/-- `AdaptiveNoiseCanceller.process`: type checks on both descriptors,
metadata resolution from the main stream, the chunk loop, and the three
unconditional `close` calls that follow the loop - calls an escaping
exception therefore skips. -/
def ncProcess (cfg : NCConfig) (main_audio aux_audio : AudioFile) : NCResult :=
  if main_audio.audio_type ≠ .wav then
    { written := [], outputMeta := (0, 0, 0), closed := [],
      error := some (.typeErr "Type of main audio file should be WAV") }
  else if aux_audio.audio_type ≠ .wav then
    { written := [], outputMeta := (0, 0, 0), closed := [],
      error := some (.typeErr "Type of auxiliary audio file should be WAV") }
  else
    let fr := pyDefault cfg.output_framerate main_audio.framerate
    let sw := pyDefault cfg.sample_width main_audio.sample_width
    let ch := pyDefault cfg.channels main_audio.n_channels
    let mainChunks := chunksOf (cfg.chunk_size * main_audio.frameSize) main_audio.content
    let auxChunks := chunksOf (cfg.chunk_size * aux_audio.frameSize) aux_audio.content
    match ncLoop cfg.ratio mainChunks auxChunks with
    | (ws, some e) =>
        { written := ws, outputMeta := (fr, ch, sw), closed := [], error := some e }
    | (ws, none) =>
        { written := ws, outputMeta := (fr, ch, sw),
          closed := [.outputS, .mainS, .auxS], error := none }

/-- Modelled from the spec: `normalize_signal` lives in
`stepik_studio_postprocessing.utils`, which is outside the sources under
verification; the spec describes it as rescaling a chunk to a common
amplitude reference, e.g. zero mean and unit peak.  We model it as
subtracting the mean and dividing by the peak absolute value (when that
peak is nonzero). -/
def normalize_signal (l : List ℚ) : List ℚ :=
  let m : ℚ := l.sum / l.length
  let centered := l.map (fun q => q - m)
  let peak : ℚ := (centered.map (fun q => |q|)).foldr max 0
  if peak = 0 then centered else centered.map (fun q => q / peak)

/-- Zero-extended indexing of a list by an integer index. -/
def lz (l : List ℚ) (j : ℤ) : ℚ := if 0 ≤ j then l.getD j.toNat 0 else 0

/-- Entry `k` of the full cross-correlation `scipy.signal.correlate(a, b)`
(mode `full`): `corrAt a b k = ∑ i, a i * b (i + length b - 1 - k)` with
`b` read as zero outside its index range. -/
def corrAt (a b : List ℚ) (k : ℕ) : ℚ :=
  ((List.range a.length).map
    (fun i => a.getD i 0 * lz b ((i : ℤ) + (b.length : ℤ) - 1 - (k : ℤ)))).sum

/-- The full cross-correlation array, of length `length a + length b - 1`. -/
def fullCorr (a b : List ℚ) : List ℚ :=
  (List.range (a.length + b.length - 1)).map (corrAt a b)

/-- Scan used by `argmaxFirst`: keeps the earliest index of the running
maximum, updating only on a strictly larger value. -/
def argmaxAux : List ℚ → ℕ → ℕ → ℚ → ℕ
  | [], _, bi, _ => bi
  | v :: t, i, bi, bv =>
      if bv < v then argmaxAux t (i + 1) i v else argmaxAux t (i + 1) bi bv

/-- `np.argmax`: index of the first occurrence of the maximum value. -/
def argmaxFirst : List ℚ → ℕ
  | [] => 0
  | v :: t => argmaxAux t 1 0 v

/-- `CorrelationSynchronizer._check_compability`: rejects a non-WAV
descriptor and any metadata mismatch, each with a `TypeError`; the last
branch reuses the framerate message, faithfully to the source. -/
def _check_compability (audio_1 audio_2 : AudioFile) : Except PyError Unit :=
  if audio_1.audio_type ≠ .wav ∨ audio_2.audio_type ≠ .wav then
    .error (.typeErr "Only WAV files supported")
  else if audio_1.n_channels ≠ audio_2.n_channels then
    .error (.typeErr "Audio files must be with the same number of channels")
  else if audio_1.framerate ≠ audio_2.framerate then
    .error (.typeErr "Audio files must be with the same framerate")
  else if audio_1.sample_width ≠ audio_2.sample_width then
    .error (.typeErr "Audio files must be with the same framerate")
  else .ok ()

/-- `CorrelationSynchronizer.get_frames_diff`: compatibility check, one
chunk read from each stream, reinterpretation as samples using
`audio_1.get_sample_size()` for both, normalization, full
cross-correlation, and `argmax(corr) - frames_2.size`.  (`np.argmax`
raises `ValueError` on an empty correlation, i.e. when a chunk is empty.) -/
def get_frames_diff (chunksize : ℕ) (audio_1 audio_2 : AudioFile) : Except PyError ℤ := do
  let _ ← _check_compability audio_1 audio_2
  let frames_1 := audio_1.content.take (chunksize * audio_1.frameSize)
  let frames_2 := audio_2.content.take (chunksize * audio_2.frameSize)
  let s1 ← np_fromstring audio_1.sample_width frames_1
  let s2 ← np_fromstring audio_1.sample_width frames_2
  if s1 = [] ∨ s2 = [] then
    .error (.valueErr "attempt to get argmax of an empty sequence")
  else
    let n1 := normalize_signal (s1.map (fun z : ℤ => (z : ℚ)))
    let n2 := normalize_signal (s2.map (fun z : ℤ => (z : ℚ)))
    let lag := argmaxFirst (fullCorr n1 n2)
    .ok ((lag : ℤ) - (n2.length : ℤ))

/-- Fuel-driven worker for `writeLoop`, structural for the same reason as
`chunksOfAux`. -/
def writeLoopAux (k : ℕ) : ℕ → List ℕ → List ℕ
  | 0, _ => []
  | _, [] => []
  | fuel + 1, x :: xs =>
    if k = 0 then []
    else (x :: xs).take k ++ writeLoopAux k fuel ((x :: xs).drop k)

/-- The copy loop of `CorrelationSynchronizer.process`: repeatedly read a
chunk of `k` bytes from the source and append it to the output until an
empty read. -/
def writeLoop (k : ℕ) (l : List ℕ) : List ℕ := writeLoopAux k l.length l

/-- `CorrelationSynchronizer.process`: compatibility check, lag from
`get_frames_diff`, source selection (`diff <= 0` picks stream 1), then
`abs(diff)` zero samples of `audio_1`'s sample width followed by the whole
source content, as the byte sequence written to the output stream. -/
def syncProcess (chunksize : ℕ) (audio_1 audio_2 : AudioFile) : Except PyError (List ℕ) := do
  let _ ← _check_compability audio_1 audio_2
  let diff ← get_frames_diff chunksize audio_1 audio_2
  let source := if diff ≤ 0 then audio_1 else audio_2
  let silence : List ℕ := List.replicate (diff.natAbs * audio_1.sample_width) 0
  .ok (silence ++ writeLoop (chunksize * source.frameSize) source.content)

/-- Concrete mono 16-bit descriptor (samples 1, 2) for exercising the lag
estimator on explicit inputs. -/
def exC1 : AudioFile :=
  { audio_type := .wav, n_channels := 1, framerate := 44100,
    sample_width := 2, content := [1, 0, 2, 0] }

/-- Concrete stereo 16-bit descriptor (one frame, samples 1 and 3). -/
def exC2stereo : AudioFile :=
  { audio_type := .wav, n_channels := 2, framerate := 44100,
    sample_width := 2, content := [1, 0, 3, 0] }

/-- Concrete mono 16-bit descriptor (samples 2, 4). -/
def exC2mono : AudioFile :=
  { audio_type := .wav, n_channels := 1, framerate := 44100,
    sample_width := 2, content := [2, 0, 4, 0] }

/-- Concrete mp3-typed descriptor. -/
def exC5mp3 : AudioFile :=
  { audio_type := .mp3, n_channels := 1, framerate := 44100,
    sample_width := 2, content := [7, 7] }

/-- Concrete wav-typed descriptor. -/
def exC5wav : AudioFile :=
  { audio_type := .wav, n_channels := 1, framerate := 44100,
    sample_width := 2, content := [8, 8] }

/-- Concrete wav descriptor at 32 kHz. -/
def exC5fr1 : AudioFile :=
  { audio_type := .wav, n_channels := 1, framerate := 32000,
    sample_width := 2, content := [9, 9] }

/-- Concrete wav descriptor at 48 kHz. -/
def exC5fr2 : AudioFile :=
  { audio_type := .wav, n_channels := 1, framerate := 48000,
    sample_width := 2, content := [] }

/-- Concrete mono 16-bit descriptor (samples 1, 3). -/
def exC7 : AudioFile :=
  { audio_type := .wav, n_channels := 1, framerate := 44100,
    sample_width := 2, content := [1, 0, 3, 0] }

/-- Mono 16-bit descriptor whose single 2-byte chunk (default chunk size)
makes the 32-bit reinterpretation in `_invert` fail mid-stream. -/
def exC9bad : AudioFile :=
  { audio_type := .wav, n_channels := 1, framerate := 44100,
    sample_width := 2, content := [5, 0] }

/-- Mono 16-bit descriptor, 8 bytes = 2 chunks of 2 frames. -/
def exC9main : AudioFile :=
  { audio_type := .wav, n_channels := 1, framerate := 44100,
    sample_width := 2, content := [1, 0, 2, 0, 3, 0, 4, 0] }

/-- Mono 16-bit descriptor, 4 bytes = 1 chunk of 2 frames. -/
def exC9aux : AudioFile :=
  { audio_type := .wav, n_channels := 1, framerate := 44100,
    sample_width := 2, content := [9, 0, 8, 0] }

/-- Mono 16-bit descriptor, 8 bytes, main input of the C4 witness. -/
def exC4main : AudioFile :=
  { audio_type := .wav, n_channels := 1, framerate := 44100,
    sample_width := 2, content := [1, 0, 2, 0, 3, 0, 4, 0] }

/-- Mono 16-bit descriptor, 4 bytes, aux input of the C4 witness. -/
def exC4aux : AudioFile :=
  { audio_type := .wav, n_channels := 1, framerate := 44100,
    sample_width := 2, content := [6, 0, 7, 0] }

/-- Mono 16-bit descriptor, main input of the C10 witness. -/
def exC10main : AudioFile :=
  { audio_type := .wav, n_channels := 1, framerate := 44100,
    sample_width := 2, content := [5, 0, 7, 0] }

/-- Mono 16-bit descriptor, aux input of the C10 witness. -/
def exC10aux : AudioFile :=
  { audio_type := .wav, n_channels := 1, framerate := 44100,
    sample_width := 2, content := [6, 0] }

/-- The streams opened across the CorrelationSynchronizer operations: the
two `wave.open` read handles of `get_frames_diff`, and the source and
output handles of `process`. -/
inductive SyncStreamId where
  | wf1S : SyncStreamId
  | wf2S : SyncStreamId
  | sourceS : SyncStreamId
  | soutputS : SyncStreamId
deriving DecidableEq

/-- `CorrelationSynchronizer.get_frames_diff` with its stream lifecycle
made observable: the result, the handles its two `wave.open` calls opened,
and the close events in order.  The `wf_1.close()` / `wf_2.close()` lines
sit at the end of the method with no try/finally, so an exception raised
after the opens (a failing reinterpretation, or `np.argmax` on an empty
correlation) skips both closes.  The result component agrees with
`get_frames_diff` (theorem `get_frames_diff_trace_result`). -/
def get_frames_diff_trace (chunksize : ℕ) (audio_1 audio_2 : AudioFile) :
    Except PyError ℤ × List SyncStreamId × List SyncStreamId :=
  match _check_compability audio_1 audio_2 with
  | .error e => (.error e, [], [])
  | .ok _ =>
    let frames_1 := audio_1.content.take (chunksize * audio_1.frameSize)
    let frames_2 := audio_2.content.take (chunksize * audio_2.frameSize)
    match np_fromstring audio_1.sample_width frames_1 with
    | .error e => (.error e, [.wf1S, .wf2S], [])
    | .ok s1 =>
      match np_fromstring audio_1.sample_width frames_2 with
      | .error e => (.error e, [.wf1S, .wf2S], [])
      | .ok s2 =>
        if s1 = [] ∨ s2 = [] then
          (.error (.valueErr "attempt to get argmax of an empty sequence"),
            [.wf1S, .wf2S], [])
        else
          let n1 := normalize_signal (s1.map (fun z : ℤ => (z : ℚ)))
          let n2 := normalize_signal (s2.map (fun z : ℤ => (z : ℚ)))
          let lag := argmaxFirst (fullCorr n1 n2)
          (.ok ((lag : ℤ) - (n2.length : ℤ)), [.wf1S, .wf2S], [.wf1S, .wf2S])

/-- `CorrelationSynchronizer.process` with its stream lifecycle made
observable on top of `syncProcess`: the handles the call opens (those of
the inner `get_frames_diff`, then its own source and output) and the close
events in order.  `source.close()` and `output.close()` run only after the
copy loop completes; an exception escaping the inner `get_frames_diff`
propagates before source or output is ever opened. -/
def syncProcess_trace (chunksize : ℕ) (audio_1 audio_2 : AudioFile) :
    Except PyError (List ℕ) × List SyncStreamId × List SyncStreamId :=
  match _check_compability audio_1 audio_2 with
  | .error e => (.error e, [], [])
  | .ok _ =>
    let inner := get_frames_diff_trace chunksize audio_1 audio_2
    match inner.1 with
    | .error e => (.error e, inner.2.1, inner.2.2)
    | .ok diff =>
      let source := if diff ≤ 0 then audio_1 else audio_2
      let silence : List ℕ := List.replicate (diff.natAbs * audio_1.sample_width) 0
      (.ok (silence ++ writeLoop (chunksize * source.frameSize) source.content),
        inner.2.1 ++ [.sourceS, .soutputS],
        inner.2.2 ++ [.sourceS, .soutputS])

/-- Mono 16-bit descriptor (samples 4, 8) for the normal-completion close
trace of the synchronizer. -/
def exC9sync : AudioFile :=
  { audio_type := .wav, n_channels := 1, framerate := 44100,
    sample_width := 2, content := [4, 0, 8, 0] }

/-- Mono 16-bit descriptor with empty content: the lag estimator fails
mid-stream (argmax of an empty correlation) after opening its two
handles. -/
def exC9empty : AudioFile :=
  { audio_type := .wav, n_channels := 1, framerate := 44100,
    sample_width := 2, content := [] }

attribute [local semireducible] Rat.add Rat.mul Rat.sub Rat.inv

theorem except_ok_bind {α β : Type} (x : α) (f : α → Except PyError β) :
    (Except.ok x : Except PyError α) >>= f = f x := rfl

theorem except_error_bind {α β : Type} (e : PyError) (f : α → Except PyError β) :
    (Except.error e : Except PyError α) >>= f = Except.error e := rfl

theorem chunksOfAux_nil {α : Type} (k fuel : ℕ) : chunksOfAux k fuel ([] : List α) = [] := by
  cases fuel <;> rfl

theorem chunksOfAux_congr {α : Type} (k : ℕ) :
    ∀ (fuel fuel' : ℕ) (l : List α), l.length ≤ fuel → l.length ≤ fuel' →
      chunksOfAux k fuel l = chunksOfAux k fuel' l := by
  intro fuel
  induction fuel with
  | zero =>
      intro fuel' l hl _
      cases l with
      | nil => rw [chunksOfAux_nil, chunksOfAux_nil]
      | cons x xs => simp at hl
  | succ fuel ih =>
      intro fuel' l hl hl'
      cases l with
      | nil => rw [chunksOfAux_nil, chunksOfAux_nil]
      | cons x xs =>
          cases fuel' with
          | zero => simp at hl'
          | succ fuel' =>
              rw [chunksOfAux, chunksOfAux]
              by_cases hk : k = 0
              · rw [if_pos hk, if_pos hk]
              · rw [if_neg hk, if_neg hk]
                congr 1
                apply ih
                · simp only [List.length_drop, List.length_cons] at *
                  omega
                · simp only [List.length_drop, List.length_cons] at *
                  omega

theorem chunksOf_cons_eq {α : Type} (k : ℕ) (x : α) (xs : List α) (hk : k ≠ 0) :
    chunksOf k (x :: xs) = (x :: xs).take k :: chunksOf k ((x :: xs).drop k) := by
  show chunksOfAux k (xs.length + 1) (x :: xs) = _
  rw [chunksOfAux, if_neg hk]
  congr 1
  apply chunksOfAux_congr
  · simp only [List.length_drop, List.length_cons]
    omega
  · exact le_refl _

theorem chunksOf_flatten_aux {α : Type} (k : ℕ) (hk : k ≠ 0) :
    ∀ (n : ℕ) (l : List α), l.length ≤ n → (chunksOf k l).flatten = l := by
  intro n
  induction n with
  | zero =>
      intro l hl
      cases l with
      | nil => rfl
      | cons x xs => simp at hl
  | succ n ih =>
      intro l hl
      cases l with
      | nil => rfl
      | cons x xs =>
          rw [chunksOf_cons_eq k x xs hk, List.flatten_cons,
            ih _ (by simp only [List.length_drop, List.length_cons] at *; omega)]
          exact List.take_append_drop k (x :: xs)

theorem chunksOf_flatten {α : Type} (k : ℕ) (hk : k ≠ 0) (l : List α) :
    (chunksOf k l).flatten = l :=
  chunksOf_flatten_aux k hk l.length l (le_refl _)

theorem chunksOf_length_mem_aux {α : Type} (k : ℕ) (hk : k ≠ 0) :
    ∀ (n : ℕ) (l : List α), l.length ≤ n → k ∣ l.length →
      ∀ c ∈ chunksOf k l, c.length = k := by
  intro n
  induction n with
  | zero =>
      intro l hl _ c hc
      cases l with
      | nil => simp [chunksOf, chunksOfAux_nil] at hc
      | cons x xs => simp at hl
  | succ n ih =>
      intro l hl hdvd c hc
      cases l with
      | nil => simp [chunksOf, chunksOfAux_nil] at hc
      | cons x xs =>
          rw [chunksOf_cons_eq k x xs hk] at hc
          have hklen : k ≤ (x :: xs).length := by
            apply Nat.le_of_dvd (by simp) hdvd
          rcases List.mem_cons.mp hc with h | h
          · subst h
            simp only [List.length_take]
            omega
          · apply ih ((x :: xs).drop k) _ _ c h
            · simp only [List.length_drop, List.length_cons] at *
              omega
            · simp only [List.length_drop]
              exact Nat.dvd_sub' hdvd (dvd_refl k)

theorem chunksOf_length_mem {α : Type} (k : ℕ) (hk : k ≠ 0) (l : List α)
    (hdvd : k ∣ l.length) : ∀ c ∈ chunksOf k l, c.length = k :=
  chunksOf_length_mem_aux k hk l.length l (le_refl _) hdvd

theorem chunksOf_count_aux {α : Type} (k : ℕ) (hk : k ≠ 0) :
    ∀ (n : ℕ) (l : List α), l.length ≤ n → k ∣ l.length →
      (chunksOf k l).length = l.length / k := by
  intro n
  induction n with
  | zero =>
      intro l hl _
      cases l with
      | nil => simp [chunksOf, chunksOfAux_nil]
      | cons x xs => simp at hl
  | succ n ih =>
      intro l hl hdvd
      cases l with
      | nil => simp [chunksOf, chunksOfAux_nil]
      | cons x xs =>
          rw [chunksOf_cons_eq k x xs hk]
          have hklen : k ≤ (x :: xs).length := Nat.le_of_dvd (by simp) hdvd
          have hdrop : ((x :: xs).drop k).length = (x :: xs).length - k := by
            simp [List.length_drop]
          rw [List.length_cons, ih ((x :: xs).drop k)
            (by simp only [List.length_drop, List.length_cons] at *; omega)
            (by rw [hdrop]; exact Nat.dvd_sub' hdvd (dvd_refl k))]
          rw [hdrop]
          obtain ⟨m, hm⟩ := hdvd
          have hm1 : 1 ≤ m := by
            rcases Nat.eq_zero_or_pos m with h | h
            · subst h; simp at hm
            · exact h
          rw [hm, Nat.mul_div_cancel_left m (Nat.pos_of_ne_zero hk),
            show k * m - k = k * (m - 1) by
              rw [mul_comm k (m - 1), Nat.sub_mul, one_mul, mul_comm m k],
            Nat.mul_div_cancel_left (m - 1) (Nat.pos_of_ne_zero hk)]
          omega

theorem chunksOf_count {α : Type} (k : ℕ) (hk : k ≠ 0) (l : List α)
    (hdvd : k ∣ l.length) : (chunksOf k l).length = l.length / k :=
  chunksOf_count_aux k hk l.length l (le_refl _) hdvd

theorem encodeLE_length : ∀ (w v : ℕ), (encodeLE w v).length = w := by
  intro w
  induction w with
  | zero => intro v; rfl
  | succ w ih => intro v; simp [encodeLE, ih]

theorem encodeSigned_length (w : ℕ) (z : ℤ) : (encodeSigned w z).length = w :=
  encodeLE_length w _

theorem leVal_lt (c : List ℕ) (hb : ∀ b ∈ c, b < 256) : leVal c < 256 ^ c.length := by
  induction c with
  | nil => simp [leVal]
  | cons b bs ih =>
      have hb' : b < 256 := hb b (by simp)
      have ihs : leVal bs < 256 ^ bs.length := ih (fun x hx => hb x (by simp [hx]))
      simp only [leVal, List.length_cons, pow_succ]
      have : 256 ^ bs.length * 256 = 256 * 256 ^ bs.length := by ring
      rw [this]
      omega

theorem encodeLE_leVal (c : List ℕ) (hb : ∀ b ∈ c, b < 256) :
    encodeLE c.length (leVal c) = c := by
  induction c with
  | nil => rfl
  | cons b bs ih =>
      have hb' : b < 256 := hb b (by simp)
      simp only [List.length_cons, encodeLE, leVal]
      congr 1
      · omega
      · rw [show (b + 256 * leVal bs) / 256 = leVal bs by omega]
        exact ih (fun x hx => hb x (by simp [hx]))

theorem encodeLE_complement : ∀ (w v : ℕ), v < 256 ^ w →
    encodeLE w (256 ^ w - 1 - v) = (encodeLE w v).map (fun b => 255 - b) := by
  intro w
  induction w with
  | zero => intro v _; rfl
  | succ w ih =>
      intro v hv
      have hp : (256 : ℕ) ^ (w + 1) = 256 * 256 ^ w := by rw [pow_succ]; ring
      rw [hp] at hv
      simp only [encodeLE, List.map_cons]
      have hP : 0 < 256 ^ w := Nat.pos_pow_of_pos w (by norm_num)
      congr 1
      · rw [hp]
        omega
      · rw [show (256 ^ (w + 1) - 1 - v) / 256 = 256 ^ w - 1 - v / 256 by rw [hp]; omega]
        exact ih (v / 256) (by omega)

theorem invert_block (c : List ℕ) (h4 : c.length = 4) (hb : ∀ b ∈ c, b < 256) :
    encodeSigned 4 (-(toSigned 4 (leVal c)) - 1) = c.map (fun b => 255 - b) := by
  have hv : leVal c < 4294967296 := by
    have := leVal_lt c hb
    rw [h4] at this
    norm_num at this
    exact this
  have harg : -(toSigned 4 (leVal c)) - 1 = (4294967295 - (leVal c : ℤ)) ∨
      -(toSigned 4 (leVal c)) - 1 = (4294967295 - (leVal c : ℤ)) - 4294967296 := by
    unfold toSigned
    split
    · right
      ring
    · left
      norm_num at *
      ring
  have hle : (0 : ℤ) ≤ 4294967295 - (leVal c : ℤ) := by omega
  have hlt : (4294967295 : ℤ) - (leVal c : ℤ) < 4294967296 := by omega
  have hmod : ((-(toSigned 4 (leVal c)) - 1) % ((2 : ℤ) ^ (8 * 4))).toNat =
      4294967295 - leVal c := by
    have h32 : ((2 : ℤ) ^ (8 * 4)) = 4294967296 := by norm_num
    rcases harg with h | h
    · rw [h, h32]
      omega
    · rw [h, h32]
      omega
  unfold encodeSigned
  rw [hmod]
  have hv256 : leVal c < 256 ^ 4 := by norm_num; exact hv
  have h256 : (256 : ℕ) ^ 4 - 1 - leVal c = 4294967295 - leVal c := by norm_num
  rw [← h256, encodeLE_complement 4 (leVal c) hv256]
  congr 1
  rw [show (4 : ℕ) = c.length from h4.symm]
  exact encodeLE_leVal c hb

theorem invert_eq_complement (data : List ℕ) (h4 : data.length % 4 = 0)
    (hb : ∀ b ∈ data, b < 256) :
    _invert data = .ok (data.map (fun b => 255 - b)) := by
  unfold _invert np_fromstring
  rw [if_pos ⟨by norm_num, h4⟩, except_ok_bind]
  dsimp only
  congr 1
  rw [List.map_map]
  have hdvd : 4 ∣ data.length := Nat.dvd_of_mod_eq_zero h4
  have hblocks : ∀ c ∈ chunksOf 4 data,
      ((encodeSigned 4 ∘ fun z => -z - 1) ∘ fun c => toSigned 4 (leVal c)) c =
        c.map (fun b => 255 - b) := by
    intro c hc
    have hc4 : c.length = 4 := chunksOf_length_mem 4 (by norm_num) data hdvd c hc
    have hcb : ∀ b ∈ c, b < 256 := by
      intro b hbc
      apply hb
      rw [← chunksOf_flatten 4 (by norm_num) data]
      exact List.mem_flatten.mpr ⟨c, hc, hbc⟩
    simpa using invert_block c hc4 hcb
  rw [List.map_map, List.map_congr_left hblocks]
  rw [← List.map_flatten, chunksOf_flatten 4 (by norm_num) data]

/-- C6: on a chunk whose byte length is a multiple of 4, `_invert` is an
involution: applying the one's-complement 32-bit inversion twice returns
the original bit pattern exactly. -/
theorem invert_involutive (data : List ℕ) (h4 : data.length % 4 = 0)
    (hb : ∀ b ∈ data, b < 256) :
    (_invert data).bind _invert = .ok data := by
  rw [invert_eq_complement data h4 hb]
  show _invert (data.map fun b => 255 - b) = .ok data
  rw [invert_eq_complement _ (by simpa using h4)
    (by intro b hb'
        simp only [List.mem_map] at hb'
        obtain ⟨a, _, rfl⟩ := hb'
        omega)]
  congr 1
  rw [List.map_map]
  conv_rhs => rw [show data = data.map id from (List.map_id data).symm]
  apply List.map_congr_left
  intro a ha
  have := hb a ha
  simp only [Function.comp_apply, id_eq]
  omega

/-- Witness for C6 at a concrete four-byte chunk. -/
theorem invert_involutive_witness :
    ([1, 2, 3, 250] : List ℕ).length % 4 = 0 ∧
      (∀ b ∈ ([1, 2, 3, 250] : List ℕ), b < 256) ∧
      (_invert [1, 2, 3, 250]).bind _invert = .ok [1, 2, 3, 250] :=
  ⟨by decide, by decide, invert_involutive [1, 2, 3, 250] (by decide) (by decide)⟩

/-- C8: for every ratio `r` the derived gains `ratio_1 = r / 2` and
`ratio_2 = (2 - r) / 2` sum to exactly 1, and at ratio 1 both equal 1/2.
(Python floats are modelled as exact rationals.) -/
theorem get_ratios_sum (ratio : ℚ) :
    (_get_ratios ratio).1 + (_get_ratios ratio).2 = 1 ∧
      (_get_ratios 1).1 = 1 / 2 ∧ (_get_ratios 1).2 = 1 / 2 := by
  refine ⟨?_, by norm_num [_get_ratios], by norm_num [_get_ratios]⟩
  unfold _get_ratios
  ring

theorem np_fromstring_eq_ok {w : ℕ} {data : List ℕ} {s : List ℤ}
    (h : np_fromstring w data = .ok s) :
    w ≠ 0 ∧ data.length % w = 0 ∧
      s = (chunksOf w data).map (fun c => toSigned w (leVal c)) := by
  by_cases hcond : w ≠ 0 ∧ data.length % w = 0
  · unfold np_fromstring at h
    rw [if_pos hcond] at h
    cases h
    exact ⟨hcond.1, hcond.2, rfl⟩
  · unfold np_fromstring at h
    rw [if_neg hcond] at h
    exact absurd h (by simp)

theorem leVal_encodeLE : ∀ (w v : ℕ), v < 256 ^ w → leVal (encodeLE w v) = v := by
  intro w
  induction w with
  | zero =>
      intro v hv
      simp only [pow_zero, Nat.lt_one_iff] at hv
      subst hv
      rfl
  | succ w ih =>
      intro v hv
      have hp : (256 : ℕ) ^ (w + 1) = 256 * 256 ^ w := by rw [pow_succ]; ring
      rw [hp] at hv
      simp only [encodeLE, leVal]
      rw [ih (v / 256) (by omega)]
      omega

theorem encodeSigned_val (w : ℕ) (z : ℤ) :
    leVal (encodeSigned w z) = (z % (2 ^ (8 * w) : ℤ)).toNat := by
  unfold encodeSigned
  apply leVal_encodeLE
  have hpos : (0 : ℤ) < 2 ^ (8 * w) := by positivity
  have h1 : 0 ≤ z % (2 ^ (8 * w) : ℤ) := Int.emod_nonneg z (by positivity)
  have h2 : z % (2 ^ (8 * w) : ℤ) < 2 ^ (8 * w) := Int.emod_lt_of_pos z hpos
  have hcast : ((256 : ℕ) ^ w : ℤ) = 2 ^ (8 * w) := by
    push_cast
    rw [pow_mul]
    norm_num
  omega

theorem chunksOf_flatten_blocks {α : Type} (k : ℕ) (hk : k ≠ 0) (L : List (List α))
    (hL : ∀ c ∈ L, c.length = k) : chunksOf k L.flatten = L := by
  induction L with
  | nil => rfl
  | cons c L ih =>
      have hc : c.length = k := hL c (by simp)
      cases c with
      | nil =>
          simp only [List.length_nil] at hc
          exact absurd hc.symm hk
      | cons b bs =>
          rw [List.flatten_cons, List.cons_append, chunksOf_cons_eq k _ _ hk]
          rw [← List.cons_append]
          congr 1
          · exact List.take_left' hc
          · rw [List.drop_left' hc]
            exact ih (fun d hd => hL d (by simp [hd]))

theorem flatten_encode_length (w : ℕ) (zs : List ℤ) :
    ((zs.map (encodeSigned w)).flatten).length = zs.length * w := by
  rw [List.length_flatten, List.map_map]
  have hrep : (zs.map (List.length ∘ encodeSigned w)) = List.replicate zs.length w := by
    have := List.eq_replicate_of_mem (l := zs.map (List.length ∘ encodeSigned w)) (a := w)
      (by intro b hbm
          obtain ⟨z, _, rfl⟩ := List.mem_map.mp hbm
          exact encodeSigned_length w z)
    simpa using this
  rw [hrep]
  simp [List.sum_replicate, mul_comm]

theorem np_fromstring_flatten_encode (w : ℕ) (hw : w ≠ 0) (zs : List ℤ) :
    np_fromstring w ((zs.map (encodeSigned w)).flatten) = .ok (zs.map (wrapSigned w)) := by
  have hlen : ∀ c ∈ zs.map (encodeSigned w), c.length = w := by
    intro c hc
    obtain ⟨z, _, rfl⟩ := List.mem_map.mp hc
    exact encodeSigned_length w z
  unfold np_fromstring
  rw [if_pos ⟨hw, by rw [flatten_encode_length]; exact Nat.mul_mod_left zs.length w⟩]
  congr 1
  rw [chunksOf_flatten_blocks w hw _ hlen, List.map_map]
  apply List.map_congr_left
  intro z _
  simp only [Function.comp_apply]
  rw [show toSigned w (leVal (encodeSigned w z)) =
    toSigned w (z % (2 ^ (8 * w) : ℤ)).toNat by rw [encodeSigned_val]]
  rfl

theorem wrapSigned_idem (w : ℕ) (z : ℤ) :
    wrapSigned w (wrapSigned w z) = wrapSigned w z := by
  have hMcast : (((2 : ℕ) ^ (8 * w) : ℕ) : ℤ) = (2 : ℤ) ^ (8 * w) := by
    rw [Nat.cast_pow]
    norm_num
  have hpos : (0 : ℤ) < 2 ^ (8 * w) := by positivity
  have h1 : 0 ≤ z % (2 ^ (8 * w) : ℤ) := Int.emod_nonneg z (ne_of_gt hpos)
  have h2 : z % (2 ^ (8 * w) : ℤ) < 2 ^ (8 * w) := Int.emod_lt_of_pos z hpos
  set v : ℕ := (z % (2 ^ (8 * w) : ℤ)).toNat with hvdef
  have hv : (v : ℤ) = z % (2 ^ (8 * w) : ℤ) := Int.toNat_of_nonneg h1
  have hvM : v < 2 ^ (8 * w) := by omega
  have hvMZ : (v : ℤ) < 2 ^ (8 * w) := by omega
  show wrapSigned w (toSigned w v) = toSigned w v
  by_cases hcase : v < 2 ^ (8 * w - 1)
  · have hts : toSigned w v = (v : ℤ) := by unfold toSigned; rw [if_pos hcase]
    rw [hts]
    unfold wrapSigned
    rw [Int.emod_eq_of_lt (by positivity) hvMZ, Int.toNat_natCast, hts]
  · have hts : toSigned w v = (v : ℤ) - 2 ^ (8 * w) := by unfold toSigned; rw [if_neg hcase]
    rw [hts]
    unfold wrapSigned
    have hmod : ((v : ℤ) - 2 ^ (8 * w)) % (2 ^ (8 * w) : ℤ) = (v : ℤ) := by
      rw [show (v : ℤ) - 2 ^ (8 * w) = v + (2 ^ (8 * w) : ℤ) * (-1) by ring,
        Int.add_mul_emod_self_left]
      exact Int.emod_eq_of_lt (by positivity) hvMZ
    rw [hmod, Int.toNat_natCast, hts]

/-- C3 (amended): over equal-length 16-bit views, each mixed output sample
equals `main * ratio_1 + invertedAux * ratio_2` TRUNCATED TOWARD ZERO
(numpy `astype(np.int16)` C-cast) and reduced to 16-bit range by
wraparound; the reference computation rounds nothing. -/
theorem mix_samples_spec (ratio : ℚ) (s1 s2 : List ℕ) (a b : List ℤ)
    (ha : np_fromstring 2 s1 = .ok a) (hb : np_fromstring 2 s2 = .ok b)
    (hlen : a.length = b.length) :
    ∃ out, _mix_samples ratio s1 s2 = .ok out ∧
      np_fromstring 2 out = .ok (List.zipWith
        (fun x y => wrapSigned 2 (truncQ ((x : ℚ) * (_get_ratios ratio).1 +
          (y : ℚ) * (_get_ratios ratio).2))) a b) := by
  unfold _mix_samples
  rw [ha, except_ok_bind, hb, except_ok_bind]
  unfold broadcast2
  rw [if_pos hlen]
  refine ⟨_, rfl, ?_⟩
  rw [np_fromstring_flatten_encode 2 (by norm_num)]
  congr 1
  rw [List.map_zipWith]
  congr 1
  funext x y
  exact wrapSigned_idem 2 _

/-- C3 counterexample: at ratio 1, a main sample of 3 and an (inverted)
aux sample of 0 mix to `1.5`; the code stores sample 1 (truncation toward
zero), while the claimed `round` would store 2. -/
theorem mix_samples_round_counterexample :
    _mix_samples 1 [3, 0] [0, 0] = .ok [1, 0] ∧
      np_fromstring 2 [1, 0] = .ok [1] ∧
      wrapSigned 2 (round ((3 : ℚ) * (_get_ratios 1).1 + (0 : ℚ) * (_get_ratios 1).2)) = 2 ∧
      (1 : ℤ) ≠ 2 := by
  refine ⟨rfl, rfl, ?_, by decide⟩
  have h : (3 : ℚ) * (_get_ratios 1).1 + (0 : ℚ) * (_get_ratios 1).2 = 3 / 2 := by
    norm_num [_get_ratios]
  rw [h, show round ((3 : ℚ) / 2) = 2 by norm_num [round_eq]]
  rfl

/-- Witness for C3 (amended) at ratio 1 on samples 3 and -1. -/
theorem mix_samples_spec_witness :
    np_fromstring 2 [3, 0] = .ok [3] ∧ np_fromstring 2 [255, 255] = .ok [-1] ∧
      ([3] : List ℤ).length = ([-1] : List ℤ).length ∧
      ∃ out, _mix_samples 1 [3, 0] [255, 255] = .ok out ∧
        np_fromstring 2 out = .ok (List.zipWith
          (fun x y => wrapSigned 2 (truncQ ((x : ℚ) * (_get_ratios 1).1 +
            (y : ℚ) * (_get_ratios 1).2))) [3] [-1]) :=
  ⟨rfl, rfl, rfl, mix_samples_spec 1 [3, 0] [255, 255] [3] [-1] rfl rfl rfl⟩

theorem mix_samples_ok (ratio : ℚ) (s1 s2 : List ℕ) (h1 : s1.length % 2 = 0)
    (h2 : s2.length = s1.length) : ∃ out, _mix_samples ratio s1 s2 = .ok out := by
  unfold _mix_samples np_fromstring
  rw [if_pos ⟨by norm_num, h1⟩, except_ok_bind, if_pos ⟨by norm_num, by omega⟩,
    except_ok_bind]
  unfold broadcast2
  rw [if_pos]
  · exact ⟨_, rfl⟩
  · simp only [List.length_map]
    rw [chunksOf_count 2 (by norm_num) s1 (Nat.dvd_of_mod_eq_zero h1),
      chunksOf_count 2 (by norm_num) s2 (Nat.dvd_of_mod_eq_zero (by omega)), h2]

theorem invert_ok (data : List ℕ) (h4 : data.length % 4 = 0) :
    ∃ out, _invert data = .ok out ∧ out.length = data.length := by
  unfold _invert np_fromstring
  rw [if_pos ⟨by norm_num, h4⟩, except_ok_bind]
  dsimp only
  refine ⟨_, rfl, ?_⟩
  rw [flatten_encode_length]
  simp only [List.length_map]
  rw [chunksOf_count 4 (by norm_num) data (Nat.dvd_of_mod_eq_zero h4)]
  exact Nat.div_mul_cancel (Nat.dvd_of_mod_eq_zero h4)

theorem ncLoop_ok (ratio : ℚ) (k : ℕ) (hk4 : k % 4 = 0) :
    ∀ ms as' : List (List ℕ), (∀ c ∈ ms, c.length = k) → (∀ c ∈ as', c.length = k) →
      (ncLoop ratio ms as').2 = none ∧
        (ncLoop ratio ms as').1.length = min ms.length as'.length := by
  intro ms
  induction ms with
  | nil =>
      intro as' _ _
      exact ⟨rfl, by simp [ncLoop]⟩
  | cons m ms ih =>
      intro as' hms has
      cases as' with
      | nil => exact ⟨rfl, by simp [ncLoop]⟩
      | cons a as2 =>
          have hm : m.length = k := hms m (by simp)
          have ha : a.length = k := has a (by simp)
          obtain ⟨ia, hia, hialen⟩ := invert_ok a (by rw [ha]; exact hk4)
          obtain ⟨mx, hmx⟩ := mix_samples_ok ratio m ia (by rw [hm]; omega)
            (by rw [hialen, ha, hm])
          obtain ⟨ih1, ih2⟩ := ih as2 (fun c hc => hms c (by simp [hc]))
            (fun c hc => has c (by simp [hc]))
          simp only [ncLoop, hia, hmx]
          refine ⟨ih1, ?_⟩
          simp only [List.length_cons, ih2]
          omega

/-- C4: with both inputs WAV-typed and well-formed chunking (equal chunk
byte sizes, a multiple of 4, dividing both contents), the noise canceller
halts normally after exactly `min N M` mixed chunks, where `N` and `M` are
the chunk counts of the two streams (`N ≠ M`): it raises no error and
silently drops the trailing chunks of the longer stream without flushing
them. -/
theorem ncProcess_min_chunks (cfg : NCConfig) (main_audio aux_audio : AudioFile)
    (hm : main_audio.audio_type = .wav) (ha : aux_audio.audio_type = .wav)
    (hkeq : cfg.chunk_size * aux_audio.frameSize = cfg.chunk_size * main_audio.frameSize)
    (hk4 : (cfg.chunk_size * main_audio.frameSize) % 4 = 0)
    (hkpos : cfg.chunk_size * main_audio.frameSize ≠ 0)
    (hdm : (cfg.chunk_size * main_audio.frameSize) ∣ main_audio.content.length)
    (hda : (cfg.chunk_size * main_audio.frameSize) ∣ aux_audio.content.length)
    (_hNM : (chunksOf (cfg.chunk_size * main_audio.frameSize) main_audio.content).length ≠
      (chunksOf (cfg.chunk_size * aux_audio.frameSize) aux_audio.content).length) :
    (ncProcess cfg main_audio aux_audio).error = none ∧
      (ncProcess cfg main_audio aux_audio).written.length =
        min (chunksOf (cfg.chunk_size * main_audio.frameSize) main_audio.content).length
          (chunksOf (cfg.chunk_size * aux_audio.frameSize) aux_audio.content).length := by
  unfold ncProcess
  rw [if_neg (by simp [hm]), if_neg (by simp [ha]), hkeq]
  have hloop := ncLoop_ok cfg.ratio (cfg.chunk_size * main_audio.frameSize) hk4
    (chunksOf (cfg.chunk_size * main_audio.frameSize) main_audio.content)
    (chunksOf (cfg.chunk_size * main_audio.frameSize) aux_audio.content)
    (chunksOf_length_mem _ hkpos main_audio.content hdm)
    (chunksOf_length_mem _ hkpos aux_audio.content hda)
  rcases hres : ncLoop cfg.ratio
      (chunksOf (cfg.chunk_size * main_audio.frameSize) main_audio.content)
      (chunksOf (cfg.chunk_size * main_audio.frameSize) aux_audio.content) with ⟨ws, err⟩
  rw [hres] at hloop
  obtain ⟨h1, h2⟩ := hloop
  simp only at h1 h2
  subst h1
  simp only [hres]
  exact ⟨trivial, h2⟩

/-- Witness for C4 at chunk size 2 on mono 16-bit streams of 2 and 1
chunks. -/
theorem ncProcess_min_chunks_witness :
    (ncProcess { chunk_size := 2 } exC4main exC4aux).error = none ∧
      (ncProcess { chunk_size := 2 } exC4main exC4aux).written.length =
        min (chunksOf (({ chunk_size := 2 } : NCConfig).chunk_size * exC4main.frameSize)
            exC4main.content).length
          (chunksOf (({ chunk_size := 2 } : NCConfig).chunk_size * exC4aux.frameSize)
            exC4aux.content).length :=
  ncProcess_min_chunks { chunk_size := 2 } exC4main exC4aux rfl rfl rfl (by decide)
    (by decide) (by decide) (by decide) (by decide)

/-- On normal completion `AdaptiveNoiseCanceller.process` closes each of
its three streams exactly once, output first, then main, then aux. -/
theorem ncProcess_closes_on_success (cfg : NCConfig) (main_audio aux_audio : AudioFile)
    (hm : main_audio.audio_type = .wav) (ha : aux_audio.audio_type = .wav)
    (hkeq : cfg.chunk_size * aux_audio.frameSize = cfg.chunk_size * main_audio.frameSize)
    (hk4 : (cfg.chunk_size * main_audio.frameSize) % 4 = 0)
    (hkpos : cfg.chunk_size * main_audio.frameSize ≠ 0)
    (hdm : (cfg.chunk_size * main_audio.frameSize) ∣ main_audio.content.length)
    (hda : (cfg.chunk_size * main_audio.frameSize) ∣ aux_audio.content.length) :
    (ncProcess cfg main_audio aux_audio).closed = [.outputS, .mainS, .auxS] := by
  unfold ncProcess
  rw [if_neg (by simp [hm]), if_neg (by simp [ha]), hkeq]
  have hloop := ncLoop_ok cfg.ratio (cfg.chunk_size * main_audio.frameSize) hk4
    (chunksOf (cfg.chunk_size * main_audio.frameSize) main_audio.content)
    (chunksOf (cfg.chunk_size * main_audio.frameSize) aux_audio.content)
    (chunksOf_length_mem _ hkpos main_audio.content hdm)
    (chunksOf_length_mem _ hkpos aux_audio.content hda)
  rcases hres : ncLoop cfg.ratio
      (chunksOf (cfg.chunk_size * main_audio.frameSize) main_audio.content)
      (chunksOf (cfg.chunk_size * main_audio.frameSize) aux_audio.content) with ⟨ws, err⟩
  rw [hres] at hloop
  obtain ⟨h1, _⟩ := hloop
  simp only at h1
  subst h1
  simp only [hres]

/-- C9 counterexample: an `_invert` failure on the first chunk (2-byte
chunk under the default 1-frame chunking of a mono 16-bit stream) escapes
`process` before any `close` line runs, so NO opened stream is closed on
that exit path - the claim that every exit path closes every opened stream
exactly once is false. -/
theorem ncProcess_failure_closes_nothing :
    (ncProcess {} exC9bad exC9bad).error =
        some (.valueErr "string size must be a multiple of element size") ∧
      (ncProcess {} exC9bad exC9bad).closed = [] :=
  ⟨rfl, rfl⟩

/-- C10: `_invert` reinterprets a chunk as 32-bit integers and fails with
`ValueError` on any chunk whose byte length is not a multiple of 4; with
WAV-typed inputs whose first paired aux chunk has such a length - as with
the default 1-frame chunk size on mono 16-bit audio, which yields 2-byte
chunks - `process` errors on the very first chunk and writes nothing. -/
theorem ncProcess_invert_error (cfg : NCConfig) (main_audio aux_audio : AudioFile)
    (hm : main_audio.audio_type = .wav) (ha : aux_audio.audio_type = .wav)
    (m0 : List ℕ) (mrest : List (List ℕ)) (a0 : List ℕ) (arest : List (List ℕ))
    (hmc : chunksOf (cfg.chunk_size * main_audio.frameSize) main_audio.content =
      m0 :: mrest)
    (hac : chunksOf (cfg.chunk_size * aux_audio.frameSize) aux_audio.content =
      a0 :: arest)
    (ha4 : a0.length % 4 ≠ 0) :
    (ncProcess cfg main_audio aux_audio).error =
        some (.valueErr "string size must be a multiple of element size") ∧
      (ncProcess cfg main_audio aux_audio).written = [] := by
  unfold ncProcess
  rw [if_neg (by simp [hm]), if_neg (by simp [ha]), hmc, hac]
  have hinv : _invert a0 =
      .error (.valueErr "string size must be a multiple of element size") := by
    unfold _invert np_fromstring
    rw [if_neg (by simp [ha4]), except_error_bind]
  simp [ncLoop, hinv]

/-- Witness for C10: default configuration (chunk size 1 frame), mono
16-bit streams, 2-byte first chunks. -/
theorem ncProcess_invert_error_witness :
    (ncProcess {} exC10main exC10aux).error =
        some (.valueErr "string size must be a multiple of element size") ∧
      (ncProcess {} exC10main exC10aux).written = [] :=
  ncProcess_invert_error {} exC10main exC10aux rfl rfl [5, 0] [[7, 0]] [6, 0] []
    (by decide) (by decide) (by decide)

theorem range_map_sum (n : ℕ) (f : ℕ → ℚ) :
    ((List.range n).map f).sum = ∑ i ∈ Finset.range n, f i := by
  induction n with
  | zero => simp
  | succ n ih =>
      rw [List.range_succ, List.map_append, List.sum_append, Finset.sum_range_succ, ih]
      simp

theorem lz_ofNat (l : List ℚ) (m : ℕ) : lz l (m : ℤ) = l.getD m 0 := by
  simp [lz]

theorem lz_neg (l : List ℚ) (j : ℤ) (h : j < 0) : lz l j = 0 := by
  rw [lz, if_neg (by omega)]

theorem normalize_signal_length (l : List ℚ) :
    (normalize_signal l).length = l.length := by
  unfold normalize_signal
  dsimp only
  split <;> simp

theorem argmaxAux_const (t : List ℚ) :
    ∀ (i bi : ℕ) (bv : ℚ), (∀ p, p < t.length → t.getD p 0 < bv) →
      argmaxAux t i bi bv = bi := by
  induction t with
  | nil => intro i bi bv _; rfl
  | cons v t ih =>
      intro i bi bv h
      have hv : v < bv := by simpa using h 0 (by simp)
      simp only [argmaxAux]
      rw [if_neg (not_lt.mpr hv.le)]
      exact ih _ _ _ (fun p hp => by
        simpa using h (p + 1) (by simpa using Nat.succ_lt_succ hp))

theorem argmaxAux_finds (t : List ℚ) :
    ∀ (k i bi : ℕ) (bv : ℚ), k < t.length → bv < t.getD k 0 →
      (∀ p, p < t.length → p ≠ k → t.getD p 0 < t.getD k 0) →
      argmaxAux t i bi bv = i + k := by
  induction t with
  | nil => intro k i bi bv hk _ _; simp at hk
  | cons v t ih =>
      intro k i bi bv hk hbv hmax
      cases k with
      | zero =>
          have hv : bv < v := by simpa using hbv
          simp only [argmaxAux]
          rw [if_pos hv]
          rw [argmaxAux_const t _ _ _ (fun p hp => by
            simpa using hmax (p + 1) (by simpa using Nat.succ_lt_succ hp) (by omega))]
          omega
      | succ k =>
          have hk' : k < t.length := by simpa using hk
          have hbv' : bv < t.getD k 0 := by simpa using hbv
          have hvk : v < t.getD k 0 := by simpa using hmax 0 (by simp) (by omega)
          have hrec : ∀ p, p < t.length → p ≠ k → t.getD p 0 < t.getD k 0 := by
            intro p hp hne
            simpa using hmax (p + 1) (by simpa using Nat.succ_lt_succ hp) (by omega)
          simp only [argmaxAux]
          by_cases hbvv : bv < v
          · rw [if_pos hbvv, ih k (i + 1) i v hk' hvk hrec]
            omega
          · rw [if_neg hbvv, ih k (i + 1) bi bv hk' hbv' hrec]
            omega

theorem argmaxFirst_unique (l : List ℚ) (j : ℕ) (hj : j < l.length)
    (hmax : ∀ p, p < l.length → p ≠ j → l.getD p 0 < l.getD j 0) :
    argmaxFirst l = j := by
  cases l with
  | nil => simp at hj
  | cons v t =>
      cases j with
      | zero =>
          simp only [argmaxFirst]
          exact argmaxAux_const t 1 0 v (fun p hp => by
            simpa using hmax (p + 1) (by simpa using Nat.succ_lt_succ hp) (by omega))
      | succ j =>
          simp only [argmaxFirst]
          rw [argmaxAux_finds t j 1 0 v (by simpa using hj)
            (by simpa using hmax 0 (by simp) (by omega))
            (fun p hp hne => by
              simpa using hmax (p + 1) (by simpa using Nat.succ_lt_succ hp) (by omega))]
          omega

theorem corrAt_eq (a b : List ℚ) (k : ℕ) :
    corrAt a b k = ∑ i ∈ Finset.range a.length,
      a.getD i 0 * lz b ((i : ℤ) + (b.length : ℤ) - 1 - (k : ℤ)) := by
  unfold corrAt
  exact range_map_sum _ _

theorem fullCorr_length (a b : List ℚ) :
    (fullCorr a b).length = a.length + b.length - 1 := by
  simp [fullCorr]

theorem fullCorr_getD (a b : List ℚ) (p : ℕ) (hp : p < a.length + b.length - 1) :
    (fullCorr a b).getD p 0 = corrAt a b p := by
  unfold fullCorr
  rw [List.getD_eq_getElem?_getD, List.getElem?_map, List.getElem?_range hp]
  rfl

theorem corr_shift_lt (x : ℕ → ℚ) (N : ℕ) (hx0 : ∀ j, N ≤ j → x j = 0)
    (hE : 0 < ∑ i ∈ Finset.range N, x i ^ 2) (d : ℕ) (hd : 1 ≤ d) :
    ∑ i ∈ Finset.range N, x i * x (i + d) < ∑ i ∈ Finset.range N, x i ^ 2 := by
  by_cases hall : ∀ i, i < N → x i = x (i + d)
  · exfalso
    have hzero : ∀ n i, N - i ≤ n → x i = 0 := by
      intro n
      induction n with
      | zero => intro i hi; exact hx0 i (by omega)
      | succ n ih =>
          intro i hi
          by_cases hN : N ≤ i
          · exact hx0 i hN
          · rw [hall i (by omega)]
            exact ih (i + d) (by omega)
    have hz : ∑ i ∈ Finset.range N, x i ^ 2 = 0 := by
      apply Finset.sum_eq_zero
      intro i _
      rw [hzero (N - i) i (le_refl _)]
      ring
    rw [hz] at hE
    exact lt_irrefl 0 hE
  · push_neg at hall
    obtain ⟨i0, hi0N, hi0⟩ := hall
    have hF : ∑ i ∈ Finset.range N, x (i + d) ^ 2 ≤ ∑ i ∈ Finset.range N, x i ^ 2 := by
      by_cases hdN : N ≤ d
      · have hzz : ∀ i ∈ Finset.range N, x (i + d) ^ 2 = 0 := by
          intro i _
          rw [hx0 (i + d) (by omega)]
          ring
        rw [Finset.sum_congr rfl hzz]
        simp only [Finset.sum_const_zero]
        exact hE.le
      · have h1 : ∑ i ∈ Finset.range N, x (i + d) ^ 2 =
            ∑ j ∈ Finset.Ico d (N + d), x j ^ 2 := by
          rw [Finset.sum_Ico_eq_sum_range]
          rw [show N + d - d = N by omega]
          exact Finset.sum_congr rfl (fun i _ => by rw [Nat.add_comm d i])
        rw [h1, ← Finset.sum_Ico_consecutive _ (by omega : d ≤ N) (by omega : N ≤ N + d)]
        have h2 : ∑ j ∈ Finset.Ico N (N + d), x j ^ 2 = 0 := by
          apply Finset.sum_eq_zero
          intro j hj
          rw [hx0 j (Finset.mem_Ico.mp hj).1]
          ring
        rw [h2, add_zero]
        apply Finset.sum_le_sum_of_subset_of_nonneg
        · intro j hj
          simp only [Finset.mem_Ico] at hj
          simp only [Finset.mem_range]
          omega
        · intro j _ _
          positivity
    have hstrict : ∑ i ∈ Finset.range N, 2 * (x i * x (i + d)) <
        ∑ i ∈ Finset.range N, (x i ^ 2 + x (i + d) ^ 2) := by
      apply Finset.sum_lt_sum
      · intro i _
        nlinarith [sq_nonneg (x i - x (i + d))]
      · refine ⟨i0, Finset.mem_range.mpr hi0N, ?_⟩
        have hpos : 0 < (x i0 - x (i0 + d)) ^ 2 :=
          lt_of_le_of_ne (sq_nonneg _) (Ne.symm (pow_ne_zero 2 (sub_ne_zero.mpr hi0)))
        nlinarith
    rw [Finset.sum_add_distrib, ← Finset.mul_sum] at hstrict
    linarith

theorem corrAt_self_center (y : List ℚ) (hN : 1 ≤ y.length) :
    corrAt y y (y.length - 1) = ∑ i ∈ Finset.range y.length, y.getD i 0 ^ 2 := by
  rw [corrAt_eq]
  apply Finset.sum_congr rfl
  intro i _
  rw [show (i : ℤ) + (y.length : ℤ) - 1 - ((y.length - 1 : ℕ) : ℤ) = (i : ℤ) by omega,
    lz_ofNat]
  ring

theorem corrAt_self_left (y : List ℚ) (k : ℕ) (hk : k + 1 < y.length) :
    corrAt y y k = ∑ i ∈ Finset.range y.length,
      y.getD i 0 * y.getD (i + (y.length - 1 - k)) 0 := by
  rw [corrAt_eq]
  apply Finset.sum_congr rfl
  intro i _
  rw [show (i : ℤ) + (y.length : ℤ) - 1 - (k : ℤ) =
    ((i + (y.length - 1 - k) : ℕ) : ℤ) by omega, lz_ofNat]

theorem corrAt_self_right (y : List ℚ) (k : ℕ) (hk1 : y.length - 1 < k)
    (hN : 1 ≤ y.length) :
    corrAt y y k = ∑ i ∈ Finset.range y.length,
      y.getD i 0 * y.getD (i + (k - (y.length - 1))) 0 := by
  set N := y.length with hNdef
  set e := k - (N - 1) with hedef
  have he1 : 1 ≤ e := by omega
  rw [corrAt_eq]
  have hstep : ∀ i ∈ Finset.range N,
      y.getD i 0 * lz y ((i : ℤ) + (N : ℤ) - 1 - (k : ℤ)) =
        (if e ≤ i then y.getD i 0 * y.getD (i - e) 0 else 0) := by
    intro i _
    by_cases hie : e ≤ i
    · rw [if_pos hie,
        show (i : ℤ) + (N : ℤ) - 1 - (k : ℤ) = ((i - e : ℕ) : ℤ) by omega, lz_ofNat]
    · rw [if_neg hie, lz_neg _ _ (by omega), mul_zero]
  rw [Finset.sum_congr rfl hstep]
  have hsub : Finset.Ico e N ⊆ Finset.range N := by
    intro j hj
    simp only [Finset.mem_Ico] at hj
    simp only [Finset.mem_range]
    omega
  have hzero : ∀ i ∈ Finset.range N, i ∉ Finset.Ico e N →
      (if e ≤ i then y.getD i 0 * y.getD (i - e) 0 else 0) = 0 := by
    intro i hi hni
    simp only [Finset.mem_range] at hi
    simp only [Finset.mem_Ico, not_and, not_lt] at hni
    rw [if_neg]
    intro hie
    have := hni hie
    omega
  rw [← Finset.sum_subset hsub hzero]
  rw [Finset.sum_congr rfl (fun i hi => if_pos (Finset.mem_Ico.mp hi).1)]
  rw [Finset.sum_Ico_eq_sum_range]
  have hrhs : ∑ i ∈ Finset.range N, y.getD i 0 * y.getD (i + e) 0 =
      ∑ i ∈ Finset.range (N - e), y.getD i 0 * y.getD (i + e) 0 := by
    symm
    apply Finset.sum_subset
    · intro j hj
      simp only [Finset.mem_range] at *
      omega
    · intro i hi hni
      simp only [Finset.mem_range, not_lt] at hi hni
      rw [List.getD_eq_default _ _ (show y.length ≤ i + e by omega), mul_zero]
  rw [hrhs]
  apply Finset.sum_congr rfl
  intro j _
  rw [show e + j - e = j by omega, Nat.add_comm e j]
  exact mul_comm _ _

theorem fullCorr_self_argmax (y : List ℚ)
    (hy : ∃ i, i < y.length ∧ y.getD i 0 ≠ 0) :
    argmaxFirst (fullCorr y y) = y.length - 1 := by
  obtain ⟨i1, hi1, hne⟩ := hy
  have hN : 1 ≤ y.length := by omega
  have hE : 0 < ∑ i ∈ Finset.range y.length, y.getD i 0 ^ 2 := by
    apply Finset.sum_pos'
    · intro i _
      positivity
    · exact ⟨i1, Finset.mem_range.mpr hi1,
        lt_of_le_of_ne (sq_nonneg _) (Ne.symm (pow_ne_zero 2 hne))⟩
  have hx0 : ∀ j, y.length ≤ j → y.getD j 0 = 0 := fun j hj =>
    List.getD_eq_default _ _ hj
  apply argmaxFirst_unique
  · rw [fullCorr_length]
    omega
  · intro p hp hpne
    rw [fullCorr_length] at hp
    rw [fullCorr_getD _ _ _ hp, fullCorr_getD _ _ _ (by omega),
      corrAt_self_center y hN]
    rcases lt_trichotomy p (y.length - 1) with h | h | h
    · rw [corrAt_self_left y p (by omega)]
      exact corr_shift_lt _ _ hx0 hE _ (by omega)
    · exact absurd h hpne
    · rw [corrAt_self_right y p h hN]
      exact corr_shift_lt _ _ hx0 hE _ (by omega)

/-- C1 (amended): correlating a stream with itself yields lag -1, not 0.
For a WAV stream whose decoded and normalized first chunk is nonzero, the
self-correlation peak sits at index N-1 of the length-2N-1 array, and
`get_frames_diff` returns `argmax - N = -1`. -/
theorem get_frames_diff_self (chunksize : ℕ) (a : AudioFile) (s : List ℤ)
    (hw : a.audio_type = .wav)
    (hs : np_fromstring a.sample_width (a.content.take (chunksize * a.frameSize)) =
      .ok s)
    (hnz : ∃ i, i < (normalize_signal (s.map (fun z : ℤ => (z : ℚ)))).length ∧
      (normalize_signal (s.map (fun z : ℤ => (z : ℚ)))).getD i 0 ≠ 0) :
    get_frames_diff chunksize a a = .ok (-1) := by
  unfold get_frames_diff
  have hck : _check_compability a a = .ok () := by
    unfold _check_compability
    rw [if_neg (by simp [hw]), if_neg (by simp), if_neg (by simp), if_neg (by simp)]
  simp only [hck, hs, except_ok_bind]
  obtain ⟨i1, hi1, hne1⟩ := hnz
  have hslen : s ≠ [] := by
    intro h
    subst h
    rw [normalize_signal_length] at hi1
    simp at hi1
  rw [if_neg (by simp [hslen])]
  rw [fullCorr_self_argmax _ ⟨i1, hi1, hne1⟩]
  rw [normalize_signal_length] at hi1 ⊢
  congr 1
  omega

/-- C1 counterexample: a concrete WAV stream correlated with itself yields
lag -1, not the claimed 0. -/
theorem get_frames_diff_self_counterexample :
    get_frames_diff 10000 exC1 exC1 = .ok (-1) ∧ (-1 : ℤ) ≠ 0 :=
  ⟨rfl, by decide⟩

/-- Witness for C1 (amended) at a concrete stream with samples 1, 2. -/
theorem get_frames_diff_self_witness :
    np_fromstring exC1.sample_width (exC1.content.take (10000 * exC1.frameSize)) =
        .ok [1, 2] ∧
      get_frames_diff 10000 exC1 exC1 = .ok (-1) :=
  ⟨rfl, get_frames_diff_self 10000 exC1 [1, 2] rfl rfl ⟨0, by decide, by decide⟩⟩

theorem lz_eq_sum (b : List ℚ) (m : ℤ) :
    lz b m = ∑ i ∈ Finset.range b.length, (if (i : ℤ) = m then b.getD i 0 else 0) := by
  by_cases hm : 0 ≤ m
  · have hcond : ∀ i : ℕ, ((i : ℤ) = m) = (i = m.toNat) := by
      intro i
      apply propext
      omega
    simp only [hcond]
    rw [Finset.sum_ite_eq' (Finset.range b.length) m.toNat (fun i => b.getD i 0)]
    rw [lz, if_pos hm]
    by_cases hmb : m.toNat < b.length
    · rw [if_pos (Finset.mem_range.mpr hmb)]
    · rw [if_neg (by simpa using hmb), List.getD_eq_default _ _ (by omega)]
  · rw [lz_neg _ _ (by omega)]
    symm
    apply Finset.sum_eq_zero
    intro i _
    rw [if_neg (by omega)]

theorem corrAt_rev (a b : List ℚ) (k : ℕ) (hk : k < a.length + b.length - 1) :
    corrAt b a (a.length + b.length - 2 - k) = corrAt a b k := by
  rw [corrAt_eq, corrAt_eq]
  have hkrcast : ((a.length + b.length - 2 - k : ℕ) : ℤ) =
      (a.length : ℤ) + b.length - 2 - k := by omega
  simp only [lz_eq_sum, Finset.mul_sum, mul_ite, mul_zero]
  rw [Finset.sum_comm]
  apply Finset.sum_congr rfl
  intro i _
  apply Finset.sum_congr rfl
  intro j _
  exact if_congr (by omega) (mul_comm _ _) rfl

/-- C7 (amended): swapping the two inputs reverses the correlation array,
so when the correlation has a unique maximum the two lags satisfy
`getFramesDiff(A,B) + getFramesDiff(B,A) = -2`, i.e. `getFramesDiff(A,B) =
-getFramesDiff(B,A) - 2` - off by 2 from the claimed antisymmetry. -/
theorem get_frames_diff_antisym (chunksize : ℕ) (a1 a2 : AudioFile)
    (s1 s2 : List ℤ) (j : ℕ)
    (hw1 : a1.audio_type = .wav) (hw2 : a2.audio_type = .wav)
    (hch : a1.n_channels = a2.n_channels) (hfr : a1.framerate = a2.framerate)
    (hsw : a1.sample_width = a2.sample_width)
    (hs1 : np_fromstring a1.sample_width
      (a1.content.take (chunksize * a1.frameSize)) = .ok s1)
    (hs2 : np_fromstring a1.sample_width
      (a2.content.take (chunksize * a2.frameSize)) = .ok s2)
    (hne1 : s1 ≠ []) (hne2 : s2 ≠ [])
    (hj : j < (normalize_signal (s1.map (fun z : ℤ => (z : ℚ)))).length +
      (normalize_signal (s2.map (fun z : ℤ => (z : ℚ)))).length - 1)
    (hmax : ∀ p, p < (normalize_signal (s1.map (fun z : ℤ => (z : ℚ)))).length +
        (normalize_signal (s2.map (fun z : ℤ => (z : ℚ)))).length - 1 → p ≠ j →
      (fullCorr (normalize_signal (s1.map (fun z : ℤ => (z : ℚ))))
          (normalize_signal (s2.map (fun z : ℤ => (z : ℚ))))).getD p 0 <
        (fullCorr (normalize_signal (s1.map (fun z : ℤ => (z : ℚ))))
          (normalize_signal (s2.map (fun z : ℤ => (z : ℚ))))).getD j 0) :
    ∃ d1 d2, get_frames_diff chunksize a1 a2 = .ok d1 ∧
      get_frames_diff chunksize a2 a1 = .ok d2 ∧ d1 + d2 = -2 := by
  set n1 := normalize_signal (s1.map (fun z : ℤ => (z : ℚ))) with hn1
  set n2 := normalize_signal (s2.map (fun z : ℤ => (z : ℚ))) with hn2
  have hN : 1 ≤ n1.length := by
    rw [hn1, normalize_signal_length, List.length_map]
    exact List.length_pos.mpr hne1
  have hM : 1 ≤ n2.length := by
    rw [hn2, normalize_signal_length, List.length_map]
    exact List.length_pos.mpr hne2
  have hck12 : _check_compability a1 a2 = .ok () := by
    unfold _check_compability
    rw [if_neg (by simp [hw1, hw2]), if_neg (by simp [hch]), if_neg (by simp [hfr]),
      if_neg (by simp [hsw])]
  have hck21 : _check_compability a2 a1 = .ok () := by
    unfold _check_compability
    rw [if_neg (by simp [hw1, hw2]), if_neg (by simp [hch]), if_neg (by simp [hfr]),
      if_neg (by simp [hsw])]
  have h12 : get_frames_diff chunksize a1 a2 = .ok ((j : ℤ) - n2.length) := by
    unfold get_frames_diff
    simp only [hck12, hs1, hs2, except_ok_bind]
    rw [if_neg (by simp [hne1, hne2])]
    rw [argmaxFirst_unique (fullCorr n1 n2) j (by rw [fullCorr_length]; exact hj)
      (fun p hp hpj => hmax p (by rwa [fullCorr_length] at hp) hpj)]
  have hs2' : np_fromstring a2.sample_width
      (a2.content.take (chunksize * a2.frameSize)) = .ok s2 := by
    rw [← hsw]
    exact hs2
  have hs1' : np_fromstring a2.sample_width
      (a1.content.take (chunksize * a1.frameSize)) = .ok s1 := by
    rw [← hsw]
    exact hs1
  have hrev : ∀ p, p < (fullCorr n2 n1).length →
      p ≠ n1.length + n2.length - 2 - j →
      (fullCorr n2 n1).getD p 0 <
        (fullCorr n2 n1).getD (n1.length + n2.length - 2 - j) 0 := by
    intro p hp hpne
    rw [fullCorr_length] at hp
    have hgd1 : (fullCorr n2 n1).getD p 0 =
        corrAt n1 n2 (n1.length + n2.length - 2 - p) := by
      rw [fullCorr_getD n2 n1 p (by omega),
        ← corrAt_rev n1 n2 (n1.length + n2.length - 2 - p) (by omega)]
      congr 1
      omega
    have hgd2 : (fullCorr n2 n1).getD (n1.length + n2.length - 2 - j) 0 =
        corrAt n1 n2 j := by
      rw [fullCorr_getD n2 n1 _ (by omega), ← corrAt_rev n1 n2 j (by omega)]
    rw [hgd1, hgd2]
    have hmx := hmax (n1.length + n2.length - 2 - p) (by omega) (by omega)
    rwa [fullCorr_getD _ _ _ (by omega), fullCorr_getD _ _ _ (by omega)] at hmx
  have h21 : get_frames_diff chunksize a2 a1 =
      .ok (((n1.length + n2.length - 2 - j : ℕ) : ℤ) - n1.length) := by
    unfold get_frames_diff
    simp only [hck21, hs2', hs1', except_ok_bind]
    rw [if_neg (by simp [hne1, hne2])]
    rw [argmaxFirst_unique (fullCorr n2 n1) (n1.length + n2.length - 2 - j)
      (by rw [fullCorr_length]; omega) hrev]
  refine ⟨_, _, h12, h21, ?_⟩
  omega

/-- C7 counterexample: with A = B a concrete compatible stream with
non-empty first chunk, getFramesDiff(A,B) = getFramesDiff(B,A) = -1, so
antisymmetry would force -1 = 1. -/
theorem get_frames_diff_antisym_counterexample :
    get_frames_diff 10000 exC7 exC7 = .ok (-1) ∧ (-1 : ℤ) ≠ -(-1 : ℤ) :=
  ⟨rfl, by decide⟩

/-- Witness for C7 (amended) on a concrete pair with unique correlation
maximum. -/
theorem get_frames_diff_antisym_witness :
    ∃ d1 d2, get_frames_diff 10000 exC7 exC7 = .ok d1 ∧
      get_frames_diff 10000 exC7 exC7 = .ok d2 ∧ d1 + d2 = -2 :=
  get_frames_diff_antisym 10000 exC7 exC7 [1, 3] [1, 3] 1 rfl rfl rfl rfl rfl rfl rfl
    (by decide) (by decide) (by decide) (by decide)

/-- C5 (amended): the compatibility check rejects a non-WAV input with a
`TypeError`, and rejects two WAV inputs with mismatched framerate (equal
channel counts) also with a `TypeError` - the SAME exception class, since
the code defines no separate FormatError or CompatibilityError - and in
both cases before any frames are read: a failed check makes
`get_frames_diff` return that very error for every content of either
stream. -/
theorem check_compability_spec :
    (∀ a1 a2 : AudioFile, (a1.audio_type ≠ .wav ∨ a2.audio_type ≠ .wav) →
      _check_compability a1 a2 = .error (.typeErr "Only WAV files supported")) ∧
    (∀ a1 a2 : AudioFile, a1.audio_type = .wav → a2.audio_type = .wav →
      a1.n_channels = a2.n_channels → a1.framerate ≠ a2.framerate →
      _check_compability a1 a2 =
        .error (.typeErr "Audio files must be with the same framerate")) ∧
    (∀ (a1 a2 : AudioFile) (e : PyError), _check_compability a1 a2 = .error e →
      ∀ (chunksize : ℕ) (c1 c2 : List ℕ),
        get_frames_diff chunksize { a1 with content := c1 }
          { a2 with content := c2 } = .error e) := by
  refine ⟨?_, ?_, ?_⟩
  · intro a1 a2 h
    unfold _check_compability
    rw [if_pos h]
  · intro a1 a2 h1 h2 hch hfr
    unfold _check_compability
    rw [if_neg (by simp [h1, h2]), if_neg (by simp [hch]), if_pos hfr]
  · intro a1 a2 e hck chunksize c1 c2
    have hck' : _check_compability { a1 with content := c1 }
        { a2 with content := c2 } = .error e := hck
    unfold get_frames_diff
    rw [hck', except_error_bind]

/-- C5 counterexample: the rejection of a non-WAV input and the rejection
of a framerate mismatch between two WAV inputs raise values of the SAME
exception class (Python `TypeError`), not a FormatError and a distinct
CompatibilityError. -/
theorem check_compability_same_class :
    _check_compability exC5mp3 exC5wav =
        .error (.typeErr "Only WAV files supported") ∧
      _check_compability exC5fr1 exC5fr2 =
        .error (.typeErr "Audio files must be with the same framerate") :=
  ⟨rfl, rfl⟩

/-- Witness for C5 (amended) at concrete descriptors, including the
no-frames-read clause: the result does not depend on the contents. -/
theorem check_compability_spec_witness :
    _check_compability exC5mp3 exC5wav =
        .error (.typeErr "Only WAV files supported") ∧
      get_frames_diff 10000 { exC5fr1 with content := [9, 9] }
        { exC5fr2 with content := [1, 2, 3] } =
          .error (.typeErr "Audio files must be with the same framerate") :=
  ⟨check_compability_spec.1 exC5mp3 exC5wav (by decide),
    check_compability_spec.2.2 exC5fr1 exC5fr2 _
      (check_compability_spec.2.1 exC5fr1 exC5fr2 rfl rfl rfl (by decide))
      10000 [9, 9] [1, 2, 3]⟩

theorem writeLoopAux_nil (k fuel : ℕ) : writeLoopAux k fuel [] = [] := by
  cases fuel <;> rfl

theorem writeLoopAux_congr (k : ℕ) :
    ∀ (fuel fuel' : ℕ) (l : List ℕ), l.length ≤ fuel → l.length ≤ fuel' →
      writeLoopAux k fuel l = writeLoopAux k fuel' l := by
  intro fuel
  induction fuel with
  | zero =>
      intro fuel' l hl _
      cases l with
      | nil => rw [writeLoopAux_nil, writeLoopAux_nil]
      | cons x xs => simp at hl
  | succ fuel ih =>
      intro fuel' l hl hl'
      cases l with
      | nil => rw [writeLoopAux_nil, writeLoopAux_nil]
      | cons x xs =>
          cases fuel' with
          | zero => simp at hl'
          | succ fuel' =>
              rw [writeLoopAux, writeLoopAux]
              by_cases hk : k = 0
              · rw [if_pos hk, if_pos hk]
              · rw [if_neg hk, if_neg hk]
                congr 1
                apply ih
                · simp only [List.length_drop, List.length_cons] at *
                  omega
                · simp only [List.length_drop, List.length_cons] at *
                  omega

theorem writeLoop_cons_eq (k : ℕ) (x : ℕ) (xs : List ℕ) (hk : k ≠ 0) :
    writeLoop k (x :: xs) = (x :: xs).take k ++ writeLoop k ((x :: xs).drop k) := by
  show writeLoopAux k (xs.length + 1) (x :: xs) = _
  rw [writeLoopAux, if_neg hk]
  congr 1
  apply writeLoopAux_congr
  · simp only [List.length_drop, List.length_cons]
    omega
  · exact le_refl _

theorem writeLoop_eq_content_aux (k : ℕ) (hk : k ≠ 0) :
    ∀ (n : ℕ) (l : List ℕ), l.length ≤ n → writeLoop k l = l := by
  intro n
  induction n with
  | zero =>
      intro l hl
      cases l with
      | nil => rfl
      | cons x xs => simp at hl
  | succ n ih =>
      intro l hl
      cases l with
      | nil => rfl
      | cons x xs =>
          rw [writeLoop_cons_eq k x xs hk,
            ih _ (by simp only [List.length_drop, List.length_cons] at *; omega)]
          exact List.take_append_drop k (x :: xs)

theorem writeLoop_eq_content (k : ℕ) (hk : k ≠ 0) (l : List ℕ) : writeLoop k l = l :=
  writeLoop_eq_content_aux k hk l.length l (le_refl _)

theorem check_ok_meta (a1 a2 : AudioFile) (h : _check_compability a1 a2 = .ok ()) :
    a1.audio_type = .wav ∧ a2.audio_type = .wav ∧ a1.n_channels = a2.n_channels ∧
      a1.framerate = a2.framerate ∧ a1.sample_width = a2.sample_width := by
  unfold _check_compability at h
  by_cases h1 : a1.audio_type ≠ .wav ∨ a2.audio_type ≠ .wav
  · rw [if_pos h1] at h
    exact absurd h (by simp)
  · rw [if_neg h1] at h
    push_neg at h1
    by_cases h2 : a1.n_channels ≠ a2.n_channels
    · rw [if_pos h2] at h
      exact absurd h (by simp)
    · rw [if_neg h2] at h
      push_neg at h2
      by_cases h3 : a1.framerate ≠ a2.framerate
      · rw [if_pos h3] at h
        exact absurd h (by simp)
      · rw [if_neg h3] at h
        push_neg at h3
        by_cases h4 : a1.sample_width ≠ a2.sample_width
        · rw [if_pos h4] at h
          exact absurd h (by simp)
        · push_neg at h4
          exact ⟨h1.1, h1.2, h2, h3, h4⟩

/-- C2 (amended): `process` picks stream 1 as copy source when diff <= 0
and stream 2 otherwise, writes `abs(diff)` zero SAMPLES (i.e.
`abs(diff) * sampleWidth` zero bytes) first, then streams the whole source
unmodified.  For MONO sources this makes the output length in frames
exactly `abs(diff) + sourceLength` with the first `abs(diff)` frames
all-zero; for multichannel sources the per-frame accounting of the
original claim fails (see the counterexample). -/
theorem syncProcess_spec (chunksize : ℕ) (a1 a2 : AudioFile) (d : ℤ)
    (hck : _check_compability a1 a2 = .ok ())
    (hd : get_frames_diff chunksize a1 a2 = .ok d)
    (hch1 : a1.n_channels = 1)
    (hsw : a1.sample_width ≠ 0)
    (hcs : chunksize ≠ 0)
    (hdvd1 : a1.sample_width ∣ a1.content.length)
    (hdvd2 : a1.sample_width ∣ a2.content.length) :
    ∃ out, syncProcess chunksize a1 a2 = .ok out ∧
      out = List.replicate (d.natAbs * a1.sample_width) 0 ++
        (if d ≤ 0 then a1 else a2).content ∧
      out.length / ((if d ≤ 0 then a1 else a2).n_channels *
          (if d ≤ 0 then a1 else a2).sample_width) =
        d.natAbs + (if d ≤ 0 then a1 else a2).content.length /
          ((if d ≤ 0 then a1 else a2).n_channels *
            (if d ≤ 0 then a1 else a2).sample_width) ∧
      ∀ b ∈ out.take (d.natAbs * ((if d ≤ 0 then a1 else a2).n_channels *
          (if d ≤ 0 then a1 else a2).sample_width)), b = 0 := by
  obtain ⟨hw1, hw2, hch, hfr, hswq⟩ := check_ok_meta a1 a2 hck
  unfold syncProcess
  simp only [hck, hd, except_ok_bind]
  set src := if d ≤ 0 then a1 else a2 with hsrc
  have hsch : src.n_channels = 1 := by
    rw [hsrc]
    split
    · exact hch1
    · rw [← hch]
      exact hch1
  have hssw : src.sample_width = a1.sample_width := by
    rw [hsrc]
    split
    · rfl
    · exact hswq.symm
  have hsdvd : a1.sample_width ∣ src.content.length := by
    rw [hsrc]
    split
    · exact hdvd1
    · exact hdvd2
  have hk : chunksize * src.frameSize ≠ 0 := by
    unfold AudioFile.frameSize
    rw [hsch, hssw, one_mul]
    exact Nat.mul_ne_zero hcs hsw
  rw [writeLoop_eq_content _ hk]
  refine ⟨_, rfl, rfl, ?_, ?_⟩
  · rw [hsch, hssw, one_mul, List.length_append, List.length_replicate,
      mul_comm d.natAbs a1.sample_width,
      Nat.mul_add_div (Nat.pos_of_ne_zero hsw)]
  · intro b hb
    rw [hsch, hssw, one_mul] at hb
    rw [List.take_left' (by rw [List.length_replicate])] at hb
    exact List.eq_of_mem_replicate hb

/-- C2 counterexample: on a concrete STEREO pair the computed diff is -1,
the code writes ONE zero sample (half a frame), and the output holds 1
frame, whereas the claim demands abs(lag) + sourceLength = 2 frames (and
its first frame is not all-zero either). -/
theorem syncProcess_stereo_counterexample :
    get_frames_diff 10000 exC2stereo exC2stereo = .ok (-1) ∧
      syncProcess 10000 exC2stereo exC2stereo = .ok [0, 0, 1, 0, 3, 0] ∧
      ([0, 0, 1, 0, 3, 0] : List ℕ).length /
        (exC2stereo.n_channels * exC2stereo.sample_width) = 1 ∧
      (1 : ℕ) ≠ (-1 : ℤ).natAbs + exC2stereo.content.length /
        (exC2stereo.n_channels * exC2stereo.sample_width) :=
  ⟨rfl, rfl, rfl, by decide⟩

/-- Witness for C2 (amended) on a concrete mono pair with diff -1. -/
theorem syncProcess_spec_witness :
    _check_compability exC2mono exC2mono = .ok () ∧
      get_frames_diff 10000 exC2mono exC2mono = .ok (-1) ∧
      ∃ out, syncProcess 10000 exC2mono exC2mono = .ok out ∧
        out = List.replicate ((-1 : ℤ).natAbs * exC2mono.sample_width) 0 ++
          (if (-1 : ℤ) ≤ 0 then exC2mono else exC2mono).content ∧
        out.length / ((if (-1 : ℤ) ≤ 0 then exC2mono else exC2mono).n_channels *
            (if (-1 : ℤ) ≤ 0 then exC2mono else exC2mono).sample_width) =
          (-1 : ℤ).natAbs +
            (if (-1 : ℤ) ≤ 0 then exC2mono else exC2mono).content.length /
              ((if (-1 : ℤ) ≤ 0 then exC2mono else exC2mono).n_channels *
                (if (-1 : ℤ) ≤ 0 then exC2mono else exC2mono).sample_width) ∧
        ∀ b ∈ out.take ((-1 : ℤ).natAbs *
            ((if (-1 : ℤ) ≤ 0 then exC2mono else exC2mono).n_channels *
              (if (-1 : ℤ) ≤ 0 then exC2mono else exC2mono).sample_width)), b = 0 :=
  ⟨rfl, rfl, syncProcess_spec 10000 exC2mono exC2mono (-1) rfl rfl rfl (by decide)
    (by decide) (by decide) (by decide)⟩

theorem get_frames_diff_trace_result (chunksize : ℕ) (a1 a2 : AudioFile) :
    (get_frames_diff_trace chunksize a1 a2).1 = get_frames_diff chunksize a1 a2 := by
  unfold get_frames_diff_trace get_frames_diff
  rcases _check_compability a1 a2 with e | u
  · rfl
  · dsimp only
    simp only [except_ok_bind]
    rcases np_fromstring a1.sample_width
        (a1.content.take (chunksize * a1.frameSize)) with e | s1
    · rfl
    · simp only [except_ok_bind]
      rcases np_fromstring a1.sample_width
          (a2.content.take (chunksize * a2.frameSize)) with e | s2
      · rfl
      · simp only [except_ok_bind]
        by_cases hemp : s1 = [] ∨ s2 = []
        · rw [if_pos hemp, if_pos hemp]
        · rw [if_neg hemp, if_neg hemp]

theorem get_frames_diff_trace_ok (cs : ℕ) (a1 a2 : AudioFile) (d : ℤ)
    (h : get_frames_diff cs a1 a2 = .ok d) :
    (get_frames_diff_trace cs a1 a2).2.1 = [.wf1S, .wf2S] ∧
      (get_frames_diff_trace cs a1 a2).2.2 = [.wf1S, .wf2S] := by
  unfold get_frames_diff at h
  unfold get_frames_diff_trace
  rcases hck : _check_compability a1 a2 with e | u
  · rw [hck, except_error_bind] at h
    exact absurd h (by simp)
  · dsimp only
    simp only [hck, except_ok_bind] at h
    rcases hf1 : np_fromstring a1.sample_width
        (a1.content.take (cs * a1.frameSize)) with e | s1
    · rw [hf1, except_error_bind] at h
      exact absurd h (by simp)
    · rw [hf1, except_ok_bind] at h
      rcases hf2 : np_fromstring a1.sample_width
          (a2.content.take (cs * a2.frameSize)) with e | s2
      · rw [hf2, except_error_bind] at h
        exact absurd h (by simp)
      · rw [hf2, except_ok_bind] at h
        dsimp only
        by_cases hemp : s1 = [] ∨ s2 = []
        · rw [if_pos hemp] at h
          exact absurd h (by simp)
        · rw [if_neg hemp]
          exact ⟨rfl, rfl⟩

theorem get_frames_diff_trace_error (cs : ℕ) (b1 b2 : AudioFile) (e : PyError)
    (hck : _check_compability b1 b2 = .ok ())
    (herr : get_frames_diff cs b1 b2 = .error e) :
    (get_frames_diff_trace cs b1 b2).2.1 = [.wf1S, .wf2S] ∧
      (get_frames_diff_trace cs b1 b2).2.2 = [] := by
  unfold get_frames_diff at herr
  unfold get_frames_diff_trace
  rw [hck]
  dsimp only
  simp only [hck, except_ok_bind] at herr
  rcases hf1 : np_fromstring b1.sample_width
      (b1.content.take (cs * b1.frameSize)) with e1 | s1
  · exact ⟨rfl, rfl⟩
  · rw [hf1, except_ok_bind] at herr
    rcases hf2 : np_fromstring b1.sample_width
        (b2.content.take (cs * b2.frameSize)) with e2 | s2
    · exact ⟨rfl, rfl⟩
    · rw [hf2, except_ok_bind] at herr
      dsimp only
      by_cases hemp : s1 = [] ∨ s2 = []
      · rw [if_pos hemp]
        exact ⟨rfl, rfl⟩
      · rw [if_neg hemp] at herr
        exact absurd herr (by simp)

theorem syncProcess_trace_ok (cs : ℕ) (p1 p2 : AudioFile) (out : List ℕ)
    (h : syncProcess cs p1 p2 = .ok out) :
    (syncProcess_trace cs p1 p2).2.1 = [.wf1S, .wf2S, .sourceS, .soutputS] ∧
      (syncProcess_trace cs p1 p2).2.2 = [.wf1S, .wf2S, .sourceS, .soutputS] := by
  unfold syncProcess at h
  unfold syncProcess_trace
  rcases hck : _check_compability p1 p2 with e | u
  · rw [hck, except_error_bind] at h
    exact absurd h (by simp)
  · dsimp only
    simp only [hck, except_ok_bind] at h
    rcases hg : get_frames_diff cs p1 p2 with e | diff
    · rw [hg, except_error_bind] at h
      exact absurd h (by simp)
    · have hres : (get_frames_diff_trace cs p1 p2).1 = .ok diff := by
        rw [get_frames_diff_trace_result]
        exact hg
      obtain ⟨ho, hc⟩ := get_frames_diff_trace_ok cs p1 p2 diff hg
      rw [hres, ho, hc]
      exact ⟨rfl, rfl⟩

theorem syncProcess_trace_error (cs : ℕ) (b1 b2 : AudioFile) (e : PyError)
    (hck : _check_compability b1 b2 = .ok ())
    (herr : get_frames_diff cs b1 b2 = .error e) :
    (syncProcess_trace cs b1 b2).2.1 = [.wf1S, .wf2S] ∧
      (syncProcess_trace cs b1 b2).2.2 = [] := by
  unfold syncProcess_trace
  rw [hck]
  dsimp only
  have hres : (get_frames_diff_trace cs b1 b2).1 = .error e := by
    rw [get_frames_diff_trace_result]
    exact herr
  obtain ⟨ho, hc⟩ := get_frames_diff_trace_error cs b1 b2 e hck herr
  rw [hres, ho, hc]
  exact ⟨rfl, rfl⟩

/-- C9 (amended): every operation closes exactly the streams it opened,
once each and in order, but only on NORMAL completion:
`AdaptiveNoiseCanceller.process` closes its output, main and aux streams;
`CorrelationSynchronizer.get_frames_diff` closes its two reader handles;
and `CorrelationSynchronizer.process` closes those two (inside the inner
lag estimation) plus its own source and output.  On a mid-stream failure
after the opens, the absent try/finally makes every close be skipped: the
canceller closes nothing (see the counterexample), and a lag estimation
failing after its opens leaves both reader handles unclosed - also when it
happens inside `process`, which then opens nothing of its own. -/
theorem stream_close_policy (cfg : NCConfig) (main_audio aux_audio : AudioFile)
    (cs1 : ℕ) (a1 a2 : AudioFile) (d : ℤ)
    (cs2 : ℕ) (p1 p2 : AudioFile) (out : List ℕ)
    (cs3 : ℕ) (b1 b2 : AudioFile) (e : PyError)
    (hm : main_audio.audio_type = .wav) (ha : aux_audio.audio_type = .wav)
    (hkeq : cfg.chunk_size * aux_audio.frameSize = cfg.chunk_size * main_audio.frameSize)
    (hk4 : (cfg.chunk_size * main_audio.frameSize) % 4 = 0)
    (hkpos : cfg.chunk_size * main_audio.frameSize ≠ 0)
    (hdm : (cfg.chunk_size * main_audio.frameSize) ∣ main_audio.content.length)
    (hda : (cfg.chunk_size * main_audio.frameSize) ∣ aux_audio.content.length)
    (hgfd : get_frames_diff cs1 a1 a2 = .ok d)
    (hsp : syncProcess cs2 p1 p2 = .ok out)
    (hckb : _check_compability b1 b2 = .ok ())
    (herr : get_frames_diff cs3 b1 b2 = .error e) :
    (ncProcess cfg main_audio aux_audio).closed = [.outputS, .mainS, .auxS] ∧
      ((get_frames_diff_trace cs1 a1 a2).2.1 = [.wf1S, .wf2S] ∧
        (get_frames_diff_trace cs1 a1 a2).2.2 = [.wf1S, .wf2S]) ∧
      ((syncProcess_trace cs2 p1 p2).2.1 = [.wf1S, .wf2S, .sourceS, .soutputS] ∧
        (syncProcess_trace cs2 p1 p2).2.2 = [.wf1S, .wf2S, .sourceS, .soutputS]) ∧
      ((get_frames_diff_trace cs3 b1 b2).2.1 = [.wf1S, .wf2S] ∧
        (get_frames_diff_trace cs3 b1 b2).2.2 = [] ∧
        (syncProcess_trace cs3 b1 b2).2.2 = []) :=
  ⟨ncProcess_closes_on_success cfg main_audio aux_audio hm ha hkeq hk4 hkpos hdm hda,
    get_frames_diff_trace_ok cs1 a1 a2 d hgfd,
    syncProcess_trace_ok cs2 p1 p2 out hsp,
    (get_frames_diff_trace_error cs3 b1 b2 e hckb herr).1,
    (get_frames_diff_trace_error cs3 b1 b2 e hckb herr).2,
    (syncProcess_trace_error cs3 b1 b2 e hckb herr).2⟩

/-- Witness for C9 (amended): concrete normally completing runs of all
three operations, plus a lag estimation failing on an empty stream after
its opens. -/
theorem stream_close_policy_witness :
    (ncProcess { chunk_size := 2 } exC9main exC9aux).closed =
        [.outputS, .mainS, .auxS] ∧
      ((get_frames_diff_trace 10000 exC9sync exC9sync).2.1 = [.wf1S, .wf2S] ∧
        (get_frames_diff_trace 10000 exC9sync exC9sync).2.2 = [.wf1S, .wf2S]) ∧
      ((syncProcess_trace 10000 exC9sync exC9sync).2.1 =
          [.wf1S, .wf2S, .sourceS, .soutputS] ∧
        (syncProcess_trace 10000 exC9sync exC9sync).2.2 =
          [.wf1S, .wf2S, .sourceS, .soutputS]) ∧
      ((get_frames_diff_trace 10000 exC9empty exC9empty).2.1 = [.wf1S, .wf2S] ∧
        (get_frames_diff_trace 10000 exC9empty exC9empty).2.2 = [] ∧
        (syncProcess_trace 10000 exC9empty exC9empty).2.2 = []) :=
  stream_close_policy { chunk_size := 2 } exC9main exC9aux
    10000 exC9sync exC9sync (-1) 10000 exC9sync exC9sync [0, 0, 4, 0, 8, 0]
    10000 exC9empty exC9empty (.valueErr "attempt to get argmax of an empty sequence")
    rfl rfl rfl (by decide) (by decide) (by decide) (by decide) (by rfl) (by rfl)
    (by rfl) (by rfl)
